import Mathlib

/-!
Verification of the rsqlite3 storage-engine core against its specification.

The embedding follows the source files:
  * `src/ast.rs`       — `Value`, its `Ord` instance, `Insertion::validate`,
    `TableSchema::validate`
  * `src/database/mod.rs` — `Database::create_table`, `Database::insert`
  * `src/btree/mod.rs` — the `BPTree` interface (its implementation file
    `bp_tree.rs` is not part of the sources; it is modelled from the spec)

Rust machine integers are embedded as `Int`/`Nat` (the claims involve only
comparisons, never overflow), `Result<T, String>` as `Except String T`,
`Option<T>` as `Option T`, and `CHashMap<String, T>` as an association list
`List (String × T)` (its sequential semantics).
-/

namespace RSqlite

/-- Value from `src/ast.rs`: `Integer(i64)` or `Null`. -/
inductive Value where
  | integer (i : Int)
  | null
deriving DecidableEq, Repr

namespace Value

/-- The `Ord for Value` instance from `src/ast.rs` lines 27–36:
integers compare as integers, `Null = Null`, `Integer < Null`. -/
def cmp : Value → Value → Ordering
  | .integer a, .integer b => compare a b
  | .null, .null => .eq
  | .integer _, .null => .lt
  | .null, .integer _ => .gt

end Value

/-- Column from `src/ast.rs`: a name and a primary-key flag. -/
structure Column where
  name : String
  is_primary_key : Bool
deriving DecidableEq, Repr

/-- TableSchema from `src/ast.rs`: a table name and a list of columns. -/
structure TableSchema where
  name : String
  columns : List Column
deriving DecidableEq, Repr

/-- The loop body of `TableSchema::validate` (src/ast.rs lines 128–147):
walks the columns keeping the set of names seen so far and a flag recording
whether a primary key was seen; a repeated name reports
`duplicate column name: <name>`, a second primary key reports
`table "<table>" has more than one primary key`. -/
def validateColumns (tname : String) : List Column → List String → Bool → Except String Unit
  | [], _, _ => .ok ()
  | c :: rest, seen, hasPk =>
    if c.name ∈ seen then
      .error ("duplicate column name: " ++ c.name)
    else if c.is_primary_key && hasPk then
      .error ("table \"" ++ tname ++ "\" has more than one primary key")
    else
      validateColumns tname rest (c.name :: seen) (hasPk || c.is_primary_key)

/-- `TableSchema::validate` from `src/ast.rs` lines 128–147. -/
def TableSchema.validate (s : TableSchema) : Except String Unit :=
  validateColumns s.name s.columns [] false

/-- Insertion from `src/ast.rs`: table name, optional column list, values. -/
structure Insertion where
  table_name : String
  column_names : Option (List String)
  values : List Value
deriving DecidableEq, Repr

/-- `Insertion::validate` from `src/ast.rs` lines 192–208: when column names
are given, the number of values must equal the number of columns, else the
error `<n> values for <m> columns` is returned. -/
def Insertion.validate (ins : Insertion) : Except String Unit :=
  match ins.column_names with
  | none => .ok ()
  | some cns =>
    if ins.values.length ≠ cns.length then
      .error (toString ins.values.length ++ " values for "
        ++ toString cns.length ++ " columns")
    else
      .ok ()

/-- Number of columns marked as primary key. -/
def pkCount (cols : List Column) : Nat :=
  (cols.filter (fun c => c.is_primary_key)).length

/-- Index of the first column whose name repeats an earlier one (or one in
`seen`), following the traversal order of `TableSchema::validate`. -/
def firstDupIdx : List Column → List String → Option Nat
  | [], _ => none
  | c :: rest, seen =>
    if c.name ∈ seen then some 0
    else (firstDupIdx rest (c.name :: seen)).map (· + 1)

/-- Index of the second primary-key column, following the traversal order of
`TableSchema::validate`. -/
def secondPkIdx : List Column → Bool → Option Nat
  | [], _ => none
  | c :: rest, hasPk =>
    if c.is_primary_key && hasPk then some 0
    else (secondPkIdx rest (hasPk || c.is_primary_key)).map (· + 1)

end RSqlite

namespace RSqlite

/-- C3 — the comparison on `Value` is a total order: integers compare as
integers, every integer is strictly below `Null`, `Null` equals `Null`;
`cmp` is reflexively `eq`, antisymmetric, transitive and antitone under swap,
the properties of a total order. -/
theorem value_cmp_total_order :
    (∀ a b : Int, Value.cmp (.integer a) (.integer b) = compare a b)
    ∧ (∀ a : Int, Value.cmp (.integer a) .null = .lt)
    ∧ Value.cmp .null .null = .eq
    ∧ (∀ v : Value, Value.cmp v v = .eq)
    ∧ (∀ u v : Value, Value.cmp u v = .eq → u = v)
    ∧ (∀ u v : Value, Value.cmp u v = (Value.cmp v u).swap)
    ∧ (∀ u v w : Value, Value.cmp u v = .lt → Value.cmp v w = .lt →
        Value.cmp u w = .lt) := by
  refine ⟨fun a b => rfl, fun a => rfl, rfl, ?_, ?_, ?_, ?_⟩
  · intro v
    cases v with
    | integer a => simp [Value.cmp, compare_eq_iff_eq]
    | null => rfl
  · intro u v h
    cases u <;> cases v <;> simp_all [Value.cmp, compare_eq_iff_eq]
  · intro u v
    cases u with
    | null => cases v <;> rfl
    | integer a =>
      cases v with
      | null => rfl
      | integer b =>
        show compare a b = (compare b a).swap
        rcases lt_trichotomy a b with h | h | h
        · rw [compare_lt_iff_lt.mpr h, compare_gt_iff_gt.mpr h]
          rfl
        · subst h
          rw [compare_eq_iff_eq.mpr rfl]
          rfl
        · rw [compare_gt_iff_gt.mpr h, compare_lt_iff_lt.mpr h]
          rfl
  · intro u v w huv hvw
    cases u <;> cases v <;> cases w <;>
      simp_all [Value.cmp, compare_lt_iff_lt]
    omega

/-- Witness for C3: the ordering facts evaluated at concrete values,
`Integer 5 < Integer 10 < Null` and antisymmetry/transitivity at a point. -/
theorem value_cmp_total_order_witness :
    Value.cmp (.integer 5) (.integer 10) = .lt
    ∧ Value.cmp (.integer 10) .null = .lt
    ∧ (Value.integer 7 = Value.integer 7)
    ∧ Value.cmp (.integer 5) .null = .lt := by
  refine ⟨by decide, value_cmp_total_order.2.1 10, ?_, ?_⟩
  · exact value_cmp_total_order.2.2.2.2.1 (.integer 7) (.integer 7) (by decide)
  · exact value_cmp_total_order.2.2.2.2.2.2 (.integer 5) (.integer 10) .null
      (by decide) (by decide)

end RSqlite

namespace RSqlite

/-- C4 — `Insertion::validate` errs exactly when column names are given and
the value count differs from the column count; the error names both counts;
the `count`-vs-two-values example fails; absent column names always pass. -/
theorem insertion_validate_spec :
    (∀ ins : Insertion, (∃ e, ins.validate = .error e) ↔
      ∃ cns, ins.column_names = some cns ∧ ins.values.length ≠ cns.length)
    ∧ (∀ ins : Insertion, ∀ cns, ins.column_names = some cns →
        ins.values.length ≠ cns.length →
        ins.validate = .error (toString ins.values.length ++ " values for "
          ++ toString cns.length ++ " columns"))
    ∧ (Insertion.mk "eggs" (some ["count"]) [.integer 32, .integer 1337]).validate
        = .error "2 values for 1 columns"
    ∧ (∀ ins : Insertion, ins.column_names = none → ins.validate = .ok ()) := by
  refine ⟨?_, ?_, by rfl, ?_⟩
  · intro ins
    cases h : ins.column_names with
    | none => simp [Insertion.validate, h]
    | some cns =>
      by_cases hlen : ins.values.length = cns.length
      · simp [Insertion.validate, h, hlen]
      · simp [Insertion.validate, h, hlen]
  · intro ins cns h hlen
    simp [Insertion.validate, h, hlen]
  · intro ins h
    simp [Insertion.validate, h]

/-- Witness for C4: the arity error, the matching-arity success and the
absent-column-names success evaluated at concrete insertions. -/
theorem insertion_validate_spec_witness :
    (Insertion.mk "t" (some ["a", "b"]) [.null]).validate
        = .error "1 values for 2 columns"
    ∧ (Insertion.mk "t" none [.null]).validate = .ok () := by
  refine ⟨?_, ?_⟩
  · exact insertion_validate_spec.2.1 (Insertion.mk "t" (some ["a", "b"]) [.null])
      ["a", "b"] rfl (by decide)
  · exact insertion_validate_spec.2.2.2 (Insertion.mk "t" none [.null]) rfl

/-- Counting primary keys across the head column, the tail and the incoming
flag: bookkeeping for the `TableSchema::validate` loop. -/
theorem pk_arith (c : Column) (rest : List Column) (hasPk : Bool)
    (hpk : ¬(c.is_primary_key = true ∧ hasPk = true)) :
    (pkCount rest + if (hasPk || c.is_primary_key) = true then 1 else 0) ≤ 1 ↔
      (pkCount (c :: rest) + if hasPk = true then 1 else 0) ≤ 1 := by
  cases hc : c.is_primary_key with
  | false =>
    cases hp : hasPk <;> simp [pkCount, List.filter_cons, hc, hp]
  | true =>
    cases hp : hasPk with
    | false => simp [pkCount, List.filter_cons, hc, hp]
    | true => exact absurd ⟨hc, hp⟩ hpk

/-- Characterization of a passing run of the `TableSchema::validate` loop:
it accepts exactly when the column names are pairwise distinct and disjoint
from the names already seen, and the primary keys found plus the incoming
flag stay at most one. -/
theorem validateColumns_ok_iff (t : String) (cols : List Column) :
    ∀ (seen : List String) (hasPk : Bool),
    validateColumns t cols seen hasPk = .ok () ↔
      ((cols.map Column.name).Nodup ∧ (∀ c ∈ cols, c.name ∉ seen)
        ∧ pkCount cols + (if hasPk then 1 else 0) ≤ 1) := by
  induction cols with
  | nil =>
    intro seen hasPk
    simp [validateColumns, pkCount]
    cases hasPk <;> simp
  | cons c rest ih =>
    intro seen hasPk
    by_cases hseen : c.name ∈ seen
    · simp only [validateColumns, if_pos hseen]
      constructor
      · intro h
        exact absurd h (by simp)
      · rintro ⟨-, h2, -⟩
        exact absurd hseen (h2 c (by simp))
    · by_cases hpk : c.is_primary_key && hasPk
      · simp only [validateColumns, if_neg hseen, if_pos hpk]
        rw [Bool.and_eq_true] at hpk
        constructor
        · intro h
          exact absurd h (by simp)
        · rintro ⟨-, -, h3⟩
          rw [pkCount, List.filter_cons_of_pos hpk.1, hpk.2] at h3
          simp at h3
      · simp only [validateColumns, if_neg hseen, if_neg hpk]
        rw [ih]
        have hpk' : ¬(c.is_primary_key = true ∧ hasPk = true) := by
          intro h
          exact hpk (by rw [Bool.and_eq_true]; exact h)
        constructor
        · rintro ⟨h1, h2, h3⟩
          have h2' : ∀ c' ∈ rest, c'.name ≠ c.name ∧ c'.name ∉ seen := by
            intro c' hc'
            have h := h2 c' hc'
            rw [List.mem_cons, not_or] at h
            exact h
          refine ⟨?_, ?_, (pk_arith c rest hasPk hpk').mp h3⟩
          · rw [List.map_cons, List.nodup_cons]
            refine ⟨?_, h1⟩
            rw [List.mem_map]
            rintro ⟨c', hc', hname⟩
            exact (h2' c' hc').1 hname
          · intro c' hc'
            rw [List.mem_cons] at hc'
            rcases hc' with rfl | hc'
            · exact hseen
            · exact (h2' c' hc').2
        · rintro ⟨h1, h2, h3⟩
          rw [List.map_cons, List.nodup_cons] at h1
          refine ⟨h1.2, ?_, (pk_arith c rest hasPk hpk').mpr h3⟩
          intro c' hc'
          rw [List.mem_cons, not_or]
          refine ⟨?_, h2 c' (List.mem_cons_of_mem c hc')⟩
          intro hname
          exact h1.1 (hname ▸ List.mem_map_of_mem Column.name hc')

/-- Every error of the `TableSchema::validate` loop is either the
duplicate-column-name message for one of the columns or the table's
more-than-one-primary-key message. -/
theorem validateColumns_error_shape (t : String) (cols : List Column) :
    ∀ (seen : List String) (hasPk : Bool) (e : String),
    validateColumns t cols seen hasPk = .error e →
      (∃ c ∈ cols, e = "duplicate column name: " ++ c.name)
      ∨ e = "table \"" ++ t ++ "\" has more than one primary key" := by
  induction cols with
  | nil =>
    intro seen hasPk e h
    exact absurd h (by simp [validateColumns])
  | cons c rest ih =>
    intro seen hasPk e h
    by_cases hseen : c.name ∈ seen
    · rw [validateColumns, if_pos hseen] at h
      left
      exact ⟨c, by simp, by injection h with h; exact h.symm⟩
    · by_cases hpk : c.is_primary_key && hasPk
      · rw [validateColumns, if_neg hseen, if_pos hpk] at h
        right
        injection h with h
        exact h.symm
      · rw [validateColumns, if_neg hseen, if_neg hpk] at h
        rcases ih _ _ _ h with ⟨c', hc', he⟩ | he
        · exact Or.inl ⟨c', by simp [hc'], he⟩
        · exact Or.inr he

/-- C5 — `TableSchema::validate` succeeds exactly when the column names are
pairwise distinct and at most one column is a primary key; every error it
returns is the duplicate-column-name message naming the offending column or
the more-than-one-primary-key message naming the table. -/
theorem tableSchema_validate_spec (s : TableSchema) :
    (s.validate = .ok () ↔
      (s.columns.map Column.name).Nodup ∧ pkCount s.columns ≤ 1)
    ∧ (∀ e, s.validate = .error e →
        (∃ c ∈ s.columns, e = "duplicate column name: " ++ c.name)
        ∨ e = "table \"" ++ s.name ++ "\" has more than one primary key") := by
  constructor
  · rw [TableSchema.validate, validateColumns_ok_iff]
    simp
  · intro e h
    exact validateColumns_error_shape s.name s.columns [] false e h

/-- Witness for C5: evaluation at concrete schemas — a valid one, one with a
repeated column name, and one with two primary keys. -/
theorem tableSchema_validate_spec_witness :
    (TableSchema.mk "fruit" [Column.mk "a" true, Column.mk "b" false]).validate
        = .ok ()
    ∧ ((∃ c ∈ [Column.mk "henry" false, Column.mk "henry" false],
          "duplicate column name: henry" = "duplicate column name: " ++ c.name)
        ∨ "duplicate column name: henry"
            = "table \"kings\" has more than one primary key") := by
  constructor
  · exact (tableSchema_validate_spec
      (TableSchema.mk "fruit" [Column.mk "a" true, Column.mk "b" false])).1.mpr
      (by constructor <;> decide)
  · exact (tableSchema_validate_spec
      (TableSchema.mk "kings" [Column.mk "henry" false, Column.mk "henry" false])).2
      "duplicate column name: henry" (by rfl)

/-- C9 — `TableSchema::validate` accepts a schema with an empty column list
for every table name, so a table with no columns can be created. -/
theorem tableSchema_validate_empty_columns (name : String) :
    (TableSchema.mk name []).validate = .ok () := rfl

/-- In the `TableSchema::validate` loop, when the first repeated column name
occurs no later than the second primary-key column, the loop reports the
duplicate-column-name error. -/
theorem validateColumns_dup_wins (t : String) (cols : List Column) :
    ∀ (seen : List String) (hasPk : Bool) (i j : Nat),
    firstDupIdx cols seen = some i → secondPkIdx cols hasPk = some j → i ≤ j →
      ∃ c ∈ cols,
        validateColumns t cols seen hasPk
          = .error ("duplicate column name: " ++ c.name) := by
  induction cols with
  | nil =>
    intro seen hasPk i j hdup hpk hij
    exact absurd hdup (by simp [firstDupIdx])
  | cons c rest ih =>
    intro seen hasPk i j hdup hpk hij
    by_cases hseen : c.name ∈ seen
    · exact ⟨c, by simp, by rw [validateColumns, if_pos hseen]⟩
    · rw [firstDupIdx, if_neg hseen] at hdup
      rcases Option.map_eq_some'.mp hdup with ⟨i', hi', rfl⟩
      by_cases hpk2 : c.is_primary_key && hasPk
      · rw [secondPkIdx, if_pos hpk2] at hpk
        injection hpk with hpk
        omega
      · rw [secondPkIdx, if_neg hpk2] at hpk
        rcases Option.map_eq_some'.mp hpk with ⟨j', hj', rfl⟩
        have hij' : i' ≤ j' := by omega
        rcases ih (c.name :: seen) (hasPk || c.is_primary_key) i' j' hi' hj' hij'
          with ⟨c', hc', herr⟩
        refine ⟨c', List.mem_cons_of_mem c hc', ?_⟩
        rw [validateColumns, if_neg hseen, if_neg hpk2]
        exact herr

/-- C10 — the duplicate-column-name check of `TableSchema::validate` takes
precedence over the duplicate-primary-key check: whenever the first repeated
column name appears at or before the second primary-key column, the returned
error is the duplicate-column-name error. -/
theorem tableSchema_dup_name_precedence (s : TableSchema) (i j : Nat)
    (hdup : firstDupIdx s.columns [] = some i)
    (hpk : secondPkIdx s.columns false = some j) (hij : i ≤ j) :
    ∃ c ∈ s.columns,
      s.validate = .error ("duplicate column name: " ++ c.name) :=
  validateColumns_dup_wins s.name s.columns [] false i j hdup hpk hij

/-- Witness for C10: two columns both named `a` and both marked primary key;
the first repeated name and the second primary key are both at index 1, and
validation reports the duplicate name, not the duplicate primary key. -/
theorem tableSchema_dup_name_precedence_witness :
    ∃ c ∈ [Column.mk "a" true, Column.mk "a" true],
      (TableSchema.mk "t" [Column.mk "a" true, Column.mk "a" true]).validate
        = .error ("duplicate column name: " ++ c.name) :=
  tableSchema_dup_name_precedence
    (TableSchema.mk "t" [Column.mk "a" true, Column.mk "a" true]) 1 1
    (by decide) (by decide) (by decide)

/-- RecordID from `src/database/mod.rs`: a page number (`u32`) and a slot id
(`u8`); the claims never exercise overflow, so both are embedded as `Nat`. -/
structure RecordID where
  page_number : Nat
  slot_id : Nat
deriving DecidableEq, Repr

/-- The `Table` trait from `src/database/mod.rs`: one operation, `insert`,
taking a row and returning a `RecordID` or an error. The row type
(`Vec<TableValue>`) is kept abstract as a type parameter, as the claims
never inspect rows. -/
structure Table (Row : Type) where
  insert : Row → Except String RecordID

/-- Modelled from the spec: `Schema` is defined in
`src/database/table_schema.rs`, which is not among the sources; §3 of the
spec gives `{table_name: String, columns: Vec<Column>}`. Only `table_name`
is read by `Database`. -/
structure Schema where
  table_name : String
  columns : List Column
deriving DecidableEq, Repr

/-- The `Database` from `src/database/mod.rs`: a registry mapping table
names to tables and a factory turning schemas into tables. The `CHashMap`
registry is embedded, with its sequential semantics, as an association list
on which `insert_new` prepends a binding; the `directory: File` handle is
pure I/O state and carries no registry information, so it is omitted. -/
structure Database (Row : Type) where
  tables : List (String × Table Row)
  factory : Schema → Except String (Table Row)

/-- `CHashMap::get` on the registry: the binding for `name`, if any. -/
def Database.getTable {Row : Type} (db : Database Row) (name : String) :
    Option (Table Row) :=
  (db.tables.find? (fun p => p.1 == name)).map Prod.snd

/-- `CHashMap::contains_key` on the registry. -/
def Database.containsTable {Row : Type} (db : Database Row) (name : String) :
    Bool :=
  (db.tables.find? (fun p => p.1 == name)).isSome

/-- `Database::create_table` from `src/database/mod.rs` lines 57–67, in
state-passing form: the returned pair is the call's result and the registry
state after the call. An existing name errs with `table <name> already
exists` before any mutation; a factory failure is propagated by `?` before
any mutation; otherwise the new table is registered under the name. -/
def Database.create_table {Row : Type} (db : Database Row) (schema : Schema) :
    Except String Unit × Database Row :=
  let table_name := schema.table_name
  if db.containsTable table_name then
    (.error ("table " ++ table_name ++ " already exists"), db)
  else
    match db.factory schema with
    | .error e => (.error e, db)
    | .ok new_table =>
      (.ok (), { db with tables := (table_name, new_table) :: db.tables })

/-- `Database::insert` from `src/database/mod.rs` lines 69–78: a missing
table errs with `no such table: <name>`; otherwise the row goes to
`Table::insert`, whose `RecordID` is discarded on success and whose error is
propagated by `?`. -/
def Database.insert {Row : Type} (db : Database Row) (table_name : String)
    (row : Row) : Except String Unit :=
  match db.getTable table_name with
  | none => .error ("no such table: " ++ table_name)
  | some table =>
    match table.insert row with
    | .error e => .error e
    | .ok _ => .ok ()

/-- C1 — calling `create_table` twice with the same table name succeeds
exactly once: when the first call returns `Ok`, the second call returns the
`already exists` error, leaves the registry exactly as the first call left
it, and the table registered by the first call (the factory's table) is
still the one registered under the name. -/
theorem create_table_twice {Row : Type} (db : Database Row) (s₁ s₂ : Schema)
    (hname : s₂.table_name = s₁.table_name)
    (hok : (db.create_table s₁).1 = .ok ()) :
    ((db.create_table s₁).2.create_table s₂).1
        = .error ("table " ++ s₁.table_name ++ " already exists")
    ∧ ((db.create_table s₁).2.create_table s₂).2 = (db.create_table s₁).2
    ∧ ∃ t, db.factory s₁ = .ok t
        ∧ (db.create_table s₁).2.getTable s₁.table_name = some t := by
  by_cases hc : db.containsTable s₁.table_name
  · rw [Database.create_table] at hok
    simp only [hc, if_true] at hok
    exact absurd hok (by simp)
  · cases hfac : db.factory s₁ with
    | error e =>
      rw [Database.create_table] at hok
      simp only [hc, if_false, hfac] at hok
      exact absurd hok (by simp)
    | ok t =>
      have hdb₁ : (db.create_table s₁).2
          = { db with tables := (s₁.table_name, t) :: db.tables } := by
        simp [Database.create_table, hc, hfac]
      have hc₁ : ((db.create_table s₁).2).containsTable s₁.table_name = true := by
        rw [hdb₁]
        simp [Database.containsTable, List.find?]
      refine ⟨?_, ?_, ⟨t, rfl, ?_⟩⟩
      · rw [Database.create_table]
        simp only [hname, hc₁, if_true]
      · rw [Database.create_table]
        simp only [hname, hc₁, if_true]
      · rw [hdb₁]
        simp [Database.getTable, List.find?]

/-- Witness for C1: a concrete database with an always-succeeding factory;
creating `bank_accounts` twice errs the second time and keeps the state. -/
theorem create_table_twice_witness :
    (let db : Database Unit :=
      ⟨[], fun _ => .ok ⟨fun _ => .ok ⟨0, 0⟩⟩⟩
     let s : Schema := ⟨"bank_accounts", []⟩
     ((db.create_table s).2.create_table s).1
        = .error ("table " ++ "bank_accounts" ++ " already exists")
     ∧ ((db.create_table s).2.create_table s).2 = (db.create_table s).2
     ∧ ∃ t, db.factory s = .ok t
        ∧ (db.create_table s).2.getTable "bank_accounts" = some t) :=
  create_table_twice _ ⟨"bank_accounts", []⟩ ⟨"bank_accounts", []⟩ rfl rfl

/-- C7 — a failing `create_table` leaves the registry untouched: the state
after the call is the state before it, so in particular no name maps to a
different table. -/
theorem create_table_error_no_mutation {Row : Type} (db : Database Row)
    (s : Schema) (e : String) (herr : (db.create_table s).1 = .error e) :
    (db.create_table s).2 = db
    ∧ ∀ name, (db.create_table s).2.getTable name = db.getTable name := by
  by_cases hc : db.containsTable s.table_name
  · simp [Database.create_table, hc]
  · cases hfac : db.factory s with
    | error e' => simp [Database.create_table, hc, hfac]
    | ok t =>
      rw [Database.create_table] at herr
      simp only [hc, if_false, hfac] at herr
      exact absurd herr (by simp)

/-- Witness for C7: a factory that always fails; `create_table` reports the
factory's error and the registry is unchanged. -/
theorem create_table_error_no_mutation_witness :
    (let db : Database Unit := ⟨[], fun _ => .error "io error"⟩
     (db.create_table ⟨"t", []⟩).2 = db
     ∧ ∀ name, (db.create_table ⟨"t", []⟩).2.getTable name
        = db.getTable name) :=
  create_table_error_no_mutation _ ⟨"t", []⟩ "io error" rfl

/-- C6 — `Database::insert` errs with `no such table` when the name is not
registered, and otherwise returns what `Table::insert` returns with the
`RecordID` discarded: `Ok(())` on success, the table's error on failure. -/
theorem database_insert_spec {Row : Type} (db : Database Row) (name : String)
    (row : Row) :
    (db.getTable name = none →
      db.insert name row = .error ("no such table: " ++ name))
    ∧ (∀ t rid, db.getTable name = some t → t.insert row = .ok rid →
        db.insert name row = .ok ())
    ∧ (∀ t e, db.getTable name = some t → t.insert row = .error e →
        db.insert name row = .error e) := by
  refine ⟨?_, ?_, ?_⟩
  · intro h
    simp [Database.insert, h]
  · intro t rid h hins
    simp [Database.insert, h, hins]
  · intro t e h hins
    simp [Database.insert, h, hins]

/-- Witness for C6: a database holding table `apples` whose insert succeeds;
inserting into `apples` returns `Ok` and inserting into the missing table
`bananas` errs with `no such table: bananas`. -/
theorem database_insert_spec_witness :
    (let apples : Table Unit := ⟨fun _ => .ok ⟨0, 0⟩⟩
     let db : Database Unit := ⟨[("apples", apples)], fun _ => .ok apples⟩
     db.insert "apples" () = .ok ()
     ∧ db.insert "bananas" () = .error ("no such table: " ++ "bananas")) := by
  refine ⟨?_, ?_⟩
  · exact (database_insert_spec _ "apples" ()).2.1 _ ⟨0, 0⟩ rfl rfl
  · exact (database_insert_spec _ "bananas" ()).1 rfl

/-- Entry from `src/btree` (re-exported in `src/btree/mod.rs`): one ordered
key/value pair, the atomic unit stored in the tree. -/
structure Entry (K V : Type) where
  key : K
  value : V
deriving DecidableEq, Repr

/-- Modelled from the spec: the `BPTree` implementation file
`src/btree/bp_tree.rs` is not among the sources; only the interface in
`src/btree/mod.rs` is. Spec §3 makes the leaves, linked in order, hold the
entries sorted by strictly increasing key with all values living in leaves,
so the tree's key→value content is exactly its in-order leaf entry
sequence — node splits redistribute entries among leaves but preserve that
sequence. The model carries this sequence; `insert` is the ordered insert
of §4.1 with the reject-with-`DuplicateKey` policy §4.1/§9 recommend, and
`lookup` is the key search of §4.2, `None` on an absent key (§4.1). -/
structure BPTree (K V : Type) where
  entries : List (Entry K V)
deriving DecidableEq, Repr

/-- The empty tree. -/
def BPTree.empty (K V : Type) : BPTree K V := ⟨[]⟩

/-- Ordered insert into the entry sequence, rejecting duplicate keys. -/
def insertEntries [LinearOrder K] (k : K) (v : V) :
    List (Entry K V) → Except String (List (Entry K V))
  | [] => .ok [⟨k, v⟩]
  | e :: rest =>
    if k < e.key then .ok (⟨k, v⟩ :: e :: rest)
    else if k = e.key then .error "DuplicateKey"
    else
      match insertEntries k v rest with
      | .error msg => .error msg
      | .ok rest' => .ok (e :: rest')

/-- Key search in the entry sequence. -/
def lookupEntries [DecidableEq K] (k : K) : List (Entry K V) → Option V
  | [] => none
  | e :: rest => if k = e.key then some e.value else lookupEntries k rest

/-- `BPTree::insert(key, value) -> Result<(), DuplicateKey>` (spec §4.2); in
state-passing form the successor tree is returned on success. -/
def BPTree.insert [LinearOrder K] (t : BPTree K V) (k : K) (v : V) :
    Except String (BPTree K V) :=
  match insertEntries k v t.entries with
  | .error msg => .error msg
  | .ok es => .ok ⟨es⟩

/-- `BPTree::lookup(key) -> Option<Value>` (spec §4.2). -/
def BPTree.lookup [LinearOrder K] (t : BPTree K V) (k : K) : Option V :=
  lookupEntries k t.entries

/-- One insertion call: a rejected insert leaves the tree unchanged. -/
def BPTree.insertRun [LinearOrder K] (t : BPTree K V) (k : K) (v : V) :
    BPTree K V :=
  match t.insert k v with
  | .error _ => t
  | .ok t' => t'

/-- A sequence of insertion calls, applied in order. -/
def BPTree.runInserts [LinearOrder K] (ops : List (K × V)) (t : BPTree K V) :
    BPTree K V :=
  ops.foldl (fun t p => t.insertRun p.1 p.2) t

/-- The strictly-increasing-key invariant of the in-order entry sequence
(spec §3). -/
def sortedEntries [LinearOrder K] (es : List (Entry K V)) : Prop :=
  es.Pairwise (fun a b => a.key < b.key)

/-- A key strictly below every key of a sequence is not found in it. -/
theorem lookupEntries_none_of_lt [LinearOrder K] (k : K)
    (es : List (Entry K V)) (h : ∀ e ∈ es, k < e.key) :
    lookupEntries k es = none := by
  induction es with
  | nil => rfl
  | cons e rest ih =>
    have hk : k ≠ e.key := ne_of_lt (h e (List.mem_cons_self e rest))
    rw [lookupEntries, if_neg hk]
    exact ih fun e' he' => h e' (List.mem_cons_of_mem e he')

/-- Every entry of a successful insert's result was already present or is
the inserted entry. -/
theorem mem_insertEntries [LinearOrder K] (k : K) (v : V)
    (es es' : List (Entry K V)) (h : insertEntries k v es = .ok es') :
    ∀ x ∈ es', x ∈ es ∨ x = Entry.mk k v := by
  induction es generalizing es' with
  | nil =>
    simp only [insertEntries] at h
    injection h with h
    subst h
    intro x hx
    simp at hx
    exact Or.inr hx
  | cons e rest ih =>
    simp only [insertEntries] at h
    by_cases h1 : k < e.key
    · rw [if_pos h1] at h
      injection h with h
      subst h
      intro x hx
      rcases List.mem_cons.mp hx with rfl | hx
      · exact Or.inr rfl
      · exact Or.inl hx
    · rw [if_neg h1] at h
      by_cases h2 : k = e.key
      · rw [if_pos h2] at h
        exact absurd h (by simp)
      · rw [if_neg h2] at h
        cases hrec : insertEntries k v rest with
        | error msg =>
          rw [hrec] at h
          exact absurd h (by simp)
        | ok rest' =>
          rw [hrec] at h
          injection h with h
          subst h
          intro x hx
          rcases List.mem_cons.mp hx with rfl | hx
          · exact Or.inl (List.mem_cons_self _ _)
          · rcases ih rest' hrec x hx with hx' | hx'
            · exact Or.inl (List.mem_cons_of_mem e hx')
            · exact Or.inr hx'

/-- A successful insert keeps the strictly-increasing-key invariant. -/
theorem insertEntries_sorted [LinearOrder K] (k : K) (v : V)
    (es es' : List (Entry K V)) (h : insertEntries k v es = .ok es')
    (hs : sortedEntries es) : sortedEntries es' := by
  induction es generalizing es' with
  | nil =>
    simp only [insertEntries] at h
    injection h with h
    subst h
    simp [sortedEntries]
  | cons e rest ih =>
    simp only [insertEntries] at h
    rcases List.pairwise_cons.mp hs with ⟨hhead, htail⟩
    by_cases h1 : k < e.key
    · rw [if_pos h1] at h
      injection h with h
      subst h
      rw [sortedEntries, List.pairwise_cons]
      refine ⟨?_, hs⟩
      intro x hx
      rcases List.mem_cons.mp hx with rfl | hx
      · exact h1
      · exact lt_trans h1 (hhead x hx)
    · rw [if_neg h1] at h
      by_cases h2 : k = e.key
      · rw [if_pos h2] at h
        exact absurd h (by simp)
      · rw [if_neg h2] at h
        cases hrec : insertEntries k v rest with
        | error msg =>
          rw [hrec] at h
          exact absurd h (by simp)
        | ok rest' =>
          rw [hrec] at h
          injection h with h
          subst h
          have hek : e.key < k :=
            lt_of_le_of_ne (le_of_not_lt h1) fun he => h2 he.symm
          rw [sortedEntries, List.pairwise_cons]
          refine ⟨?_, ih rest' hrec htail⟩
          intro x hx
          rcases mem_insertEntries k v rest rest' hrec x hx with hx' | rfl
          · exact hhead x hx'
          · exact hek

/-- After a successful insert, looking up the inserted key finds the
inserted value. -/
theorem lookupEntries_insert_self [LinearOrder K] (k : K) (v : V)
    (es es' : List (Entry K V)) (h : insertEntries k v es = .ok es') :
    lookupEntries k es' = some v := by
  induction es generalizing es' with
  | nil =>
    simp only [insertEntries] at h
    injection h with h
    subst h
    simp [lookupEntries]
  | cons e rest ih =>
    simp only [insertEntries] at h
    by_cases h1 : k < e.key
    · rw [if_pos h1] at h
      injection h with h
      subst h
      simp [lookupEntries]
    · rw [if_neg h1] at h
      by_cases h2 : k = e.key
      · rw [if_pos h2] at h
        exact absurd h (by simp)
      · rw [if_neg h2] at h
        cases hrec : insertEntries k v rest with
        | error msg =>
          rw [hrec] at h
          exact absurd h (by simp)
        | ok rest' =>
          rw [hrec] at h
          injection h with h
          subst h
          rw [lookupEntries, if_neg h2]
          exact ih rest' hrec

/-- A successful insert of another key does not change a lookup. -/
theorem lookupEntries_insert_other [LinearOrder K] (k q : K) (v : V)
    (es es' : List (Entry K V)) (h : insertEntries q v es = .ok es')
    (hne : k ≠ q) : lookupEntries k es' = lookupEntries k es := by
  induction es generalizing es' with
  | nil =>
    simp only [insertEntries] at h
    injection h with h
    subst h
    simp [lookupEntries, hne]
  | cons e rest ih =>
    simp only [insertEntries] at h
    by_cases h1 : q < e.key
    · rw [if_pos h1] at h
      injection h with h
      subst h
      rw [lookupEntries, if_neg hne]
    · rw [if_neg h1] at h
      by_cases h2 : q = e.key
      · rw [if_pos h2] at h
        exact absurd h (by simp)
      · rw [if_neg h2] at h
        cases hrec : insertEntries q v rest with
        | error msg =>
          rw [hrec] at h
          exact absurd h (by simp)
        | ok rest' =>
          rw [hrec] at h
          injection h with h
          subst h
          by_cases h3 : k = e.key
          · rw [lookupEntries, if_pos h3, lookupEntries, if_pos h3]
          · rw [lookupEntries, if_neg h3, lookupEntries, if_neg h3]
            exact ih rest' hrec

/-- On a sorted sequence, inserting a key that is already bound is rejected
with `DuplicateKey`. -/
theorem insertEntries_error_of_mem [LinearOrder K] (k : K) (v v' : V)
    (es : List (Entry K V)) (hs : sortedEntries es)
    (h : lookupEntries k es = some v) :
    insertEntries k v' es = .error "DuplicateKey" := by
  induction es with
  | nil => simp [lookupEntries] at h
  | cons e rest ih =>
    rcases List.pairwise_cons.mp hs with ⟨hhead, htail⟩
    by_cases h2 : k = e.key
    · subst h2
      simp [insertEntries, lt_irrefl]
    · rw [lookupEntries, if_neg h2] at h
      have h1 : ¬ k < e.key := by
        intro hlt
        rw [lookupEntries_none_of_lt k rest
          (fun x hx => lt_trans hlt (hhead x hx))] at h
        cases h
      rw [insertEntries, if_neg h1, if_neg h2, ih htail h]

/-- An insertion call keeps the order invariant, whether or not it is
accepted. -/
theorem insertRun_sorted [LinearOrder K] (t : BPTree K V) (k : K) (v : V)
    (hs : sortedEntries t.entries) :
    sortedEntries ((t.insertRun k v).entries) := by
  rw [BPTree.insertRun, BPTree.insert]
  cases hrec : insertEntries k v t.entries with
  | error msg => exact hs
  | ok es => exact insertEntries_sorted k v t.entries es hrec hs

/-- A bound key keeps its value across any later insertion call: an insert
at the same key is rejected on a sorted tree, and an insert at another key
does not touch the binding. -/
theorem insertRun_lookup_stable [LinearOrder K] (t : BPTree K V)
    (k q : K) (v w : V) (hs : sortedEntries t.entries)
    (h : t.lookup k = some v) : (t.insertRun q w).lookup k = some v := by
  by_cases he : k = q
  · subst he
    rw [BPTree.insertRun, BPTree.insert,
      insertEntries_error_of_mem k v w t.entries hs h]
    exact h
  · rw [BPTree.insertRun, BPTree.insert]
    cases hrec : insertEntries q w t.entries with
    | error msg => exact h
    | ok es =>
      rw [BPTree.lookup]
      rw [lookupEntries_insert_other k q w t.entries es hrec he]
      exact h

/-- A sequence of insertion calls keeps the order invariant. -/
theorem runInserts_sorted [LinearOrder K] (ops : List (K × V)) :
    ∀ t : BPTree K V, sortedEntries t.entries →
      sortedEntries ((BPTree.runInserts ops t).entries) := by
  induction ops with
  | nil => exact fun t hs => hs
  | cons p rest ih =>
    intro t hs
    rw [BPTree.runInserts, List.foldl_cons]
    exact ih _ (insertRun_sorted t p.1 p.2 hs)

/-- A bound key keeps its value across any sequence of later insertion
calls. -/
theorem runInserts_lookup_stable [LinearOrder K] (ops : List (K × V))
    (k : K) (v : V) :
    ∀ t : BPTree K V, sortedEntries t.entries → t.lookup k = some v →
      (BPTree.runInserts ops t).lookup k = some v := by
  induction ops with
  | nil => exact fun t _ h => h
  | cons p rest ih =>
    intro t hs h
    rw [BPTree.runInserts, List.foldl_cons]
    exact ih _ (insertRun_sorted t p.1 p.2 hs)
      (insertRun_lookup_stable t k p.1 v p.2 hs h)

/-- C2 — round-trip on the spec-modelled `BPTree`: in any sequence of
insertions starting from the empty tree, a `(key, value)` pair whose insert
was accepted (not rejected with `DuplicateKey`; under the reject policy no
accepted pair is ever overwritten) is returned by `lookup key` at the end
of the sequence. -/
theorem bptree_roundtrip [LinearOrder K] (pre post : List (K × V))
    (k : K) (v : V) (t' : BPTree K V)
    (hacc : (BPTree.runInserts pre (BPTree.empty K V)).insert k v = .ok t') :
    (BPTree.runInserts (pre ++ (k, v) :: post) (BPTree.empty K V)).lookup k
      = some v := by
  have hs0 : sortedEntries ((BPTree.runInserts pre (BPTree.empty K V)).entries) :=
    runInserts_sorted pre _ (by simp [BPTree.empty, sortedEntries])
  have hes : insertEntries k v (BPTree.runInserts pre (BPTree.empty K V)).entries
      = .ok t'.entries := by
    rw [BPTree.insert] at hacc
    cases hrec : insertEntries k v (BPTree.runInserts pre (BPTree.empty K V)).entries with
    | error msg =>
      rw [hrec] at hacc
      exact absurd hacc (by simp)
    | ok es =>
      rw [hrec] at hacc
      injection hacc with hacc
      rw [← hacc]
  have hrun : (BPTree.runInserts pre (BPTree.empty K V)).insertRun k v = t' := by
    rw [BPTree.insertRun, hacc]
  have hsplit : BPTree.runInserts (pre ++ (k, v) :: post) (BPTree.empty K V)
      = BPTree.runInserts post
          ((BPTree.runInserts pre (BPTree.empty K V)).insertRun k v) := by
    rw [BPTree.runInserts, List.foldl_append, List.foldl_cons]
    rfl
  rw [hsplit, hrun]
  refine runInserts_lookup_stable post k v t' ?_ ?_
  · exact insertEntries_sorted k v _ t'.entries hes hs0
  · rw [BPTree.lookup]
    exact lookupEntries_insert_self k v _ t'.entries hes

/-- Witness for C2: insert 2↦20 then 1↦10 (accepted), then attempt 1↦99
(rejected as a duplicate); looking up key 1 returns 10. -/
theorem bptree_roundtrip_witness :
    (BPTree.runInserts ([((2 : Int), (20 : Int))] ++ (1, 10) :: [(1, 99)])
        (BPTree.empty Int Int)).lookup 1 = some 10 :=
  bptree_roundtrip [(2, 20)] [(1, 99)] 1 10 ⟨[⟨1, 10⟩, ⟨2, 20⟩]⟩ rfl

/-- Phase of a thread executing `Database::create_table(name)`: before the
`contains_key` check, between the check and `insert_new`, or finished with
the call's result (`true` means the call returned `Ok`, `false` means it
returned the `AlreadyExists` error). -/
inductive Phase where
  | start
  | checked
  | finished (ok : Bool)
deriving DecidableEq, Repr

/-- Shared state of a two-thread `create_table` race: the names bound in the
`CHashMap` registry, and each thread's phase. -/
structure RaceState where
  registry : List String
  t0 : Phase
  t1 : Phase
deriving DecidableEq, Repr

/-- One atomic step of a thread running `create_table(name)`, following
src/database/mod.rs lines 57–67. `CHashMap` makes each single map call
atomic, but `contains_key` (the `start` step) and `insert_new` (the
`checked` step) are two separate calls with the factory call in between;
nothing makes the pair atomic. `insert_new` stores the binding without
reporting an existing key (chashmap documents no error for that case — only
a debug-build assertion), and the call then returns `Ok`. -/
def stepThread (name : String) (reg : List String) :
    Phase → Phase × List String
  | .start =>
    if name ∈ reg then (.finished false, reg) else (.checked, reg)
  | .checked => (.finished true, name :: reg)
  | .finished b => (.finished b, reg)

/-- Run the race under a schedule: `false` steps thread 0, `true` steps
thread 1. -/
def runSched (name : String) : List Bool → RaceState → RaceState
  | [], s => s
  | c :: rest, s =>
    if c then
      let (p, reg) := stepThread name s.registry s.t1
      runSched name rest { s with t1 := p, registry := reg }
    else
      let (p, reg) := stepThread name s.registry s.t0
      runSched name rest { s with t0 := p, registry := reg }

/-- C8 — counterexample trace: two threads call `create_table` with the same
name `t` on an empty database; under the interleaving check₀, check₁,
insert₀, insert₁ both `contains_key` checks see the name absent, so both
calls run `insert_new` and both finish with `Ok`, leaving the name bound
twice — not one success and one `AlreadyExists` as claimed. -/
theorem create_table_race_two_winners :
    runSched "t" [false, true, false, true]
        { registry := [], t0 := .start, t1 := .start }
      = { registry := ["t", "t"], t0 := .finished true, t1 := .finished true } :=
  rfl

/-- Sanity check of the race model: when the two calls are serialized the
sequential behaviour of C1 reappears — the first call wins and the second
returns the `AlreadyExists` error. -/
theorem create_table_race_serialized :
    runSched "t" [false, false, true]
        { registry := [], t0 := .start, t1 := .start }
      = { registry := ["t"], t0 := .finished true, t1 := .finished false } :=
  rfl

end RSqlite
